import Mathlib

/-!
Shallow embedding of the Rexxie ownership-refresh script
(`refresh-owners.cjs` part of `scheduled-refresh.cjs`): the output
classifier `findJigVout`, the forward tracer `traceForward`, the
owner-index operations, `processNFT`, the driver pass, and the
resilient HTTP wrapper `wocGet` with its adaptive delay.

The chain data provider is modelled as a pure oracle whose two
operations (`spender`, `tx`) may fail (`Except`), mirroring
`getSpender`/`getTx` after the retry layer.  Every provider call made
is also logged in a request list so that "makes no lookup" claims are
expressible.
-/

set_option maxRecDepth 10000

deriving instance DecidableEq for Except

namespace Rexxie

abbrev Err := String

/-- A transaction output as delivered by the provider (the fields the
script reads: `n`, `value`, `scriptPubKey.asm` (only its containing
`OP_RETURN` or not matters via `includes`), `scriptPubKey.type`,
`scriptPubKey.addresses`). Monetary values are modelled exactly, in
satoshis (1 BSV = 10^8 satoshis), so the decimal dust
ceilings 0.001 and 0.00001 become the integers 100000 and 1000. -/
structure ScriptPubKey where
  asm : Option String
  type : Option String
  addresses : Option (List String)
deriving DecidableEq

structure Vout where
  n : Nat
  value : Nat
  scriptPubKey : Option ScriptPubKey
deriving DecidableEq

structure Tx where
  txid : String
  vout : List Vout
  blockheight : Nat
deriving DecidableEq

/-- Models the JS substring test `s.includes` with the OP_RETURN marker. -/
def includesOpReturn (s : String) : Bool :=
  (s.splitOn "OP_RETURN").length != 1

/-- Models the optional-chained asm test for OP_RETURN (missing
pieces are falsy). -/
def voutHasOpReturn (v : Vout) : Bool :=
  match v.scriptPubKey with
  | some spk =>
    match spk.asm with
    | some s => includesOpReturn s
    | none => false
  | none => false

/-- The escrow (orderlock) dust ceiling, 0.001 BSV in satoshis. -/
def ESCROW_DUST_SATS : Nat := 100000

/-- The standard jig dust ceiling, 0.00001 BSV in satoshis. -/
def JIG_DUST_SATS : Nat := 1000

/-- Models the orderlock test: nonstandard script type and value at
or below the escrow dust ceiling. -/
def isOrderLockVout (v : Vout) : Bool :=
  match v.scriptPubKey with
  | some spk => spk.type == some "nonstandard" && decide (v.value ≤ ESCROW_DUST_SATS)
  | none => false

/-- Models the optional-chained first-address read (undefined when
absent or empty). -/
def firstAddr (v : Vout) : Option String :=
  match v.scriptPubKey with
  | some spk =>
    match spk.addresses with
    | some (a :: _) => some a
    | _ => none
  | none => none

/-- Result of `findJigVout`. -/
structure JigInfo where
  vout : Nat
  addr : Option String
  isOrderLock : Bool
deriving DecidableEq

/-- First loop of `findJigVout`: orderlock-first scan. -/
def findOrderLockVout : List Vout → Option JigInfo
  | [] => none
  | v :: rest =>
    if voutHasOpReturn v then findOrderLockVout rest
    else if isOrderLockVout v then some ⟨v.n, none, true⟩
    else findOrderLockVout rest

/-- Second loop of `findJigVout`: standard dust-output scan.  The JS
guard `addr && vout.value > 0 && vout.value <= 0.00001` requires a
truthy (non-empty) first address. -/
def findStandardVout : List Vout → Option JigInfo
  | [] => none
  | v :: rest =>
    if voutHasOpReturn v then findStandardVout rest
    else
      match firstAddr v with
      | some a =>
        if a ≠ "" ∧ 0 < v.value ∧ v.value ≤ JIG_DUST_SATS then some ⟨v.n, some a, false⟩
        else findStandardVout rest
      | none => findStandardVout rest

/-- Models `findJigVout`: orderlock scan over all outputs first, then the
standard dust scan. -/
def findJigVout (tx : Tx) : Option JigInfo :=
  match findOrderLockVout tx.vout with
  | some j => some j
  | none => findStandardVout tx.vout

/-- The chain data provider as seen through `getSpender`/`getTx`:
each call either yields a definitive answer (`Option`) or fails with
an error after the retry layer is exhausted. -/
structure Provider where
  spender : String → Nat → Except Err (Option String)
  tx : String → Except Err (Option Tx)

/-- A logged provider request. -/
inductive Req
  | spent (txid : String) (vout : Nat)
  | tx (txid : String)
deriving DecidableEq

/-- One transfer-history event (`send` events carry a `to` address,
`burn` events do not). -/
structure Transfer where
  txid : String
  type : String
  fromAddr : String
  toAddr : Option String
  blockHeight : Nat
deriving DecidableEq

/-- Return value of `traceForward`. -/
structure TraceResult where
  owner : String
  lastTx : String
  lastVout : Nat
  newTransfers : List Transfer
  hops : Nat
deriving DecidableEq

/-- The guard `!jig.isOrderLock && jig.addr && jig.addr !== owner`:
the new owner when the hop is a real ownership change. -/
def jigNewOwner (jig : JigInfo) (owner : String) : Option String :=
  if jig.isOrderLock then none
  else
    match jig.addr with
    | none => none
    | some a => if a = "" then none else if a = owner then none else some a

/-- The `while (hops < 100)` loop of `traceForward`, with the
remaining iteration budget as structural fuel (`fuel = 100 - hops` at
the top-level call).  Faithful to the source: an unspent position
breaks before incrementing `hops`; a null spending transaction or a
null classification breaks after incrementing; the cursor and owner
advance otherwise. -/
def traceForwardAux (P : Provider) :
    Nat → String → Nat → String → List Transfer → Nat → List Req →
    Except Err TraceResult × List Req
  | 0, txid, vout, owner, acc, hops, reqs => (.ok ⟨owner, txid, vout, acc, hops⟩, reqs)
  | fuel+1, txid, vout, owner, acc, hops, reqs =>
    match P.spender txid vout with
    | .error e => (.error e, reqs ++ [.spent txid vout])
    | .ok none => (.ok ⟨owner, txid, vout, acc, hops⟩, reqs ++ [.spent txid vout])
    | .ok (some s) =>
      match P.tx s with
      | .error e => (.error e, reqs ++ [.spent txid vout, .tx s])
      | .ok none => (.ok ⟨owner, txid, vout, acc, hops + 1⟩, reqs ++ [.spent txid vout, .tx s])
      | .ok (some spendTx) =>
        match findJigVout spendTx with
        | none => (.ok ⟨owner, txid, vout, acc, hops + 1⟩, reqs ++ [.spent txid vout, .tx s])
        | some jig =>
          match jigNewOwner jig owner with
          | some a =>
            traceForwardAux P fuel s jig.vout a
              (acc ++ [⟨s, "send", owner, some a, spendTx.blockheight⟩])
              (hops + 1) (reqs ++ [.spent txid vout, .tx s])
          | none =>
            traceForwardAux P fuel s jig.vout owner acc
              (hops + 1) (reqs ++ [.spent txid vout, .tx s])

/-- Models `traceForward` with the 100-hop ceiling of the source. -/
def traceForward (P : Provider) (startTxid : String) (startVout : Nat)
    (currentOwner : String) : Except Err TraceResult × List Req :=
  traceForwardAux P 100 startTxid startVout currentOwner [] 0 []

/-- One ledger entry (`ledger.nfts[num]`): the fields the refresh
script reads or writes. -/
structure NFTRecord where
  owner : String
  lastTx : Option String
  lastVout : Option Nat
  transfers : List Transfer
  burned : Bool
  burnTx : Option String
deriving DecidableEq

/-- First-match association-list lookup (JS object property read). -/
def lookupNFT : List (Nat × NFTRecord) → Nat → Option NFTRecord
  | [], _ => none
  | (k, r) :: rest, num => if k = num then some r else lookupNFT rest num

/-- In-place update of an existing record (JS mutates the object
fetched from `ledger.nfts[num]`; keys are never added or removed).
Replaces the first matching entry, as a JS object has one slot per
key. -/
def setNFT : List (Nat × NFTRecord) → Nat → NFTRecord → List (Nat × NFTRecord)
  | [], _, _ => []
  | (k, v) :: rest, num, r =>
    if k = num then (num, r) :: rest else (k, v) :: setNFT rest num r

/-- Owner-index lookup (`ledger.owners[addr]`). -/
def lookupIdx : List (String × List Nat) → String → Option (List Nat)
  | [], _ => none
  | (k, v) :: rest, a => if k = a then some v else lookupIdx rest a

/-- Owner-index value assignment for an existing key (first matching
slot, as a JS object has one slot per key). -/
def setIdx : List (String × List Nat) → String → List Nat → List (String × List Nat)
  | [], _, _ => []
  | (k, v) :: rest, a, w =>
    if k = a then (a, w) :: rest else (k, v) :: setIdx rest a w

/-- Models the JS delete of an owner-index key. -/
def eraseIdx (O : List (String × List Nat)) (a : String) :
    List (String × List Nat) :=
  O.filter fun p => p.1 != a

/-- Membership of an asset ID in the set of an address. -/
def ownsB (O : List (String × List Nat)) (a : String) (n : Nat) : Bool :=
  match lookupIdx O a with
  | some lst => lst.contains n
  | none => false

/-- Models `removeFromOwnerIndex`: filter the ID out and delete
the key if its set became empty. -/
def removeFromOwnerIndex (O : List (String × List Nat)) (addr : String)
    (num : Nat) : List (String × List Nat) :=
  match lookupIdx O addr with
  | none => O
  | some lst =>
    let lst2 := lst.filter (· != num)
    if lst2.isEmpty then eraseIdx O addr else setIdx O addr lst2

/-- Models `addToOwnerIndex`: create the key if absent, then push
the ID unless already present. -/
def addToOwnerIndex (O : List (String × List Nat)) (addr : String)
    (num : Nat) : List (String × List Nat) :=
  match lookupIdx O addr with
  | none => O ++ [(addr, [num])]
  | some lst => if num ∈ lst then O else setIdx O addr (lst ++ [num])

/-- The in-memory ledger: the asset records and the owner index.  The
`collection.lastUpdated` timestamp (only touched by `saveLedger`) is
not modelled. -/
structure Ledger where
  nfts : List (Nat × NFTRecord)
  owners : List (String × List Nat)
deriving DecidableEq

/-- Models `resolveLastVout` for a record whose `lastTx` is `t`: return
the cached `lastVout` if present, otherwise fetch `lastTx`, classify,
and cache the found vout on the record. -/
def resolveLastVout (P : Provider) (t : String) (nft : NFTRecord) :
    Except Err (Option Nat) × NFTRecord × List Req :=
  match nft.lastVout with
  | some v => (.ok (some v), nft, [])
  | none =>
    match P.tx t with
    | .error e => (.error e, nft, [.tx t])
    | .ok none => (.ok none, nft, [.tx t])
    | .ok (some tx) =>
      match findJigVout tx with
      | some r => (.ok (some r.vout), { nft with lastVout := some r.vout }, [.tx t])
      | none => (.ok none, nft, [.tx t])

/-- Per-asset outcome of `processNFT`. -/
inductive PStatus
  | skip | unchanged | burned | changed
deriving DecidableEq

/-- Models `processNFT`: the per-asset reconciliation step, returning
the outcome (or the thrown error), the ledger after the JS in-place
mutations, and the provider requests issued. -/
def processNFT (P : Provider) (l : Ledger) (num : Nat) :
    Except Err PStatus × Ledger × List Req :=
  match lookupNFT l.nfts num with
  | none => (.error "no such nft", l, [])
  | some nft =>
    match nft.lastTx with
    | none => (.ok .skip, l, [])
    | some t =>
      if t = "" then (.ok .skip, l, [])
      else if nft.burned then (.ok .unchanged, l, [])
      else
        match resolveLastVout P t nft with
        | (.error e, nft1, reqs1) =>
          (.error e, { l with nfts := setNFT l.nfts num nft1 }, reqs1)
        | (.ok none, nft1, reqs1) =>
          (.error "could not resolve vout in lastTx",
            { l with nfts := setNFT l.nfts num nft1 }, reqs1)
        | (.ok (some v), nft1, reqs1) =>
          let l1 : Ledger := { l with nfts := setNFT l.nfts num nft1 }
          match P.spender t v with
          | .error e => (.error e, l1, reqs1 ++ [.spent t v])
          | .ok none => (.ok .unchanged, l1, reqs1 ++ [.spent t v])
          | .ok (some s) =>
            match P.tx s with
            | .error e => (.error e, l1, reqs1 ++ [.spent t v, .tx s])
            | .ok none =>
              (.error "could not fetch spending tx", l1, reqs1 ++ [.spent t v, .tx s])
            | .ok (some spendTx) =>
              match findJigVout spendTx with
              | none =>
                let nft2 := { nft1 with
                  burned := true
                  burnTx := some s
                  transfers := nft1.transfers ++
                    [⟨s, "burn", nft1.owner, none, spendTx.blockheight⟩] }
                (.ok .burned, { l1 with nfts := setNFT l1.nfts num nft2 },
                  reqs1 ++ [.spent t v, .tx s])
              | some jig =>
                let oldOwner := nft1.owner
                let pre : List Transfer :=
                  match jigNewOwner jig oldOwner with
                  | some a => [⟨s, "send", oldOwner, some a, spendTx.blockheight⟩]
                  | none => []
                let cur : String :=
                  match jigNewOwner jig oldOwner with
                  | some a => a
                  | none => oldOwner
                match traceForward P s jig.vout cur with
                | (.error e, reqsT) => (.error e, l1, reqs1 ++ [.spent t v, .tx s] ++ reqsT)
                | (.ok r, reqsT) =>
                  let nft2 := { nft1 with
                    transfers := nft1.transfers ++ (pre ++ r.newTransfers)
                    owner := r.owner
                    lastTx := some r.lastTx
                    lastVout := some r.lastVout }
                  let l2 : Ledger := { l1 with nfts := setNFT l1.nfts num nft2 }
                  let owners2 :=
                    if oldOwner ≠ r.owner then
                      addToOwnerIndex (removeFromOwnerIndex l2.owners oldOwner num) r.owner num
                    else l2.owners
                  (.ok .changed, { l2 with owners := owners2 },
                    reqs1 ++ [.spent t v, .tx s] ++ reqsT)

/-- Ascending insertion, for the stable iteration order of the driver. -/
def insertAsc (n : Nat) : List Nat → List Nat
  | [] => [n]
  | m :: rest => if n ≤ m then n :: m :: rest else m :: insertAsc n rest

/-- Models the ascending numeric key sort of the driver. -/
def sortAsc (l : List Nat) : List Nat := l.foldr insertAsc []

/-- The main pass of the driver over a list of asset IDs: run `processNFT`
on each in order, collecting per-asset outcomes and the failed queue. -/
def mainPassAux (P : Provider) :
    List Nat → Ledger → Ledger × List (Nat × Except Err PStatus) × List Nat
  | [], l => (l, [], [])
  | num :: rest, l =>
    match processNFT P l num with
    | (.error e, l1, _) =>
      let out := mainPassAux P rest l1
      (out.1, (num, .error e) :: out.2.1, num :: out.2.2)
    | (.ok s, l1, _) =>
      let out := mainPassAux P rest l1
      (out.1, (num, .ok s) :: out.2.1, out.2.2)

/-- One retry round over the failed queue. -/
def retryRoundAux (P : Provider) :
    List Nat → Ledger → Ledger × List Nat
  | [], l => (l, [])
  | num :: rest, l =>
    match processNFT P l num with
    | (.error _, l1, _) =>
      let out := retryRoundAux P rest l1
      (out.1, num :: out.2)
    | (.ok _, l1, _) =>
      let out := retryRoundAux P rest l1
      (out.1, out.2)

/-- One reconciliation pass: the main pass in ascending-ID order,
then up to two retry rounds while the failed queue is non-empty.
Returns the final ledger, the main-pass outcomes, and the IDs still
failing. -/
def runPass (P : Provider) (l : Ledger) :
    Ledger × List (Nat × Except Err PStatus) × List Nat :=
  let nums := sortAsc (l.nfts.map Prod.fst)
  let out1 := mainPassAux P nums l
  let out2 := if out1.2.2.isEmpty then (out1.1, out1.2.2) else retryRoundAux P out1.2.2 out1.1
  let out3 := if out2.2.isEmpty then out2 else retryRoundAux P out2.2 out2.1
  (out3.1, out1.2.1, out3.2)

/-- The reported unique-owner count: the number of owner-index keys. -/
def uniqueOwners (O : List (String × List Nat)) : Nat := O.length

/-! ### The HTTP layer: `wocGet` with retries, backoff and adaptive delay -/

/-- The four ways one HTTP attempt can end, as `wocGet` distinguishes
them: 200, 404, 429, and everything else (non-success status,
timeout, network error). -/
inductive HResp
  | success
  | notFound
  | rateLimited
  | hardFail
deriving DecidableEq

/-- What a completed `wocGet` resolves to: a parsed body (200) or
`null` (404). -/
inductive WResult
  | body
  | nullResult
deriving DecidableEq

/-- The retry budget of the source, MAX_RETRIES = 3. -/
def MAX_RETRIES : Nat := 3

/-- Models `onSuccess`: nudge the adaptive delay down by 50 ms towards the
200 ms floor. -/
def onSuccessDelay (d : Nat) : Nat := if d > 200 then max 200 (d - 50) else d

/-- Models `onThrottle`: double the adaptive delay, capped at 3000 ms. -/
def onThrottleDelay (d : Nat) : Nat := min 3000 (d * 2)

/-- The `for (attempt = 0; attempt <= retries; attempt++)` loop of
`wocGet`, over a schedule giving the outcome of each attempt.  The fuel is
the number of loop iterations left (`retries + 1 - attempt`); the
fuel-exhausted case is unreachable.  A 200 or 404 resolves (after
`onSuccess`); a 429 runs `onThrottle` and is retried after backoff if
attempts remain, otherwise the `rate-limited` error is thrown; any
other failure is retried likewise.  Backoff sleeps are not modelled
(pure time). -/
def wocGetGo (sched : Nat → HResp) (retries : Nat) :
    Nat → Nat → Nat → Except Err WResult × Nat
  | 0, _, d => (.ok .nullResult, d)
  | fuel+1, attempt, d =>
    match sched attempt with
    | .success => (.ok .body, onSuccessDelay d)
    | .notFound => (.ok .nullResult, onSuccessDelay d)
    | .rateLimited =>
      let d2 := onThrottleDelay d
      if attempt < retries then wocGetGo sched retries fuel (attempt + 1) d2
      else (.error "rate-limited", d2)
    | .hardFail =>
      if attempt < retries then wocGetGo sched retries fuel (attempt + 1) d
      else (.error "request failed", d)

/-- Models `wocGet`: run the attempt loop from attempt 0 with the
current adaptive delay, returning the outcome and the new delay. -/
def wocGetModel (sched : Nat → HResp) (retries d : Nat) : Except Err WResult × Nat :=
  wocGetGo sched retries (retries + 1) 0 d

end Rexxie

/-! ### Association-list lemmas for the ledger and the owner index -/

namespace Rexxie

theorem lookupNFT_setNFT_self (l : List (Nat × NFTRecord)) (num : Nat)
    (r rec : NFTRecord) (h : lookupNFT l num = some rec) :
    lookupNFT (setNFT l num r) num = some r := by
  induction l with
  | nil => simp [lookupNFT] at h
  | cons p rest ih =>
    obtain ⟨k, v⟩ := p
    simp only [setNFT]
    by_cases hk : k = num
    · rw [if_pos hk]
      simp [lookupNFT]
    · rw [if_neg hk]
      simp only [lookupNFT, if_neg hk] at h ⊢
      exact ih h

theorem lookupNFT_setNFT_other (l : List (Nat × NFTRecord)) (num m : Nat)
    (r : NFTRecord) (h : m ≠ num) :
    lookupNFT (setNFT l num r) m = lookupNFT l m := by
  induction l with
  | nil => simp [setNFT]
  | cons p rest ih =>
    obtain ⟨k, v⟩ := p
    simp only [setNFT]
    by_cases hk : k = num
    · rw [if_pos hk]
      have h1 : ¬(num = m) := fun hc => h hc.symm
      have h2 : ¬(k = m) := fun hc => h1 (hk.symm.trans hc)
      simp [lookupNFT, h1, h2]
    · rw [if_neg hk]
      simp [lookupNFT, ih]

theorem setNFT_self (l : List (Nat × NFTRecord)) (num : Nat) (rec : NFTRecord)
    (h : lookupNFT l num = some rec) : setNFT l num rec = l := by
  induction l with
  | nil => simp [setNFT]
  | cons p rest ih =>
    obtain ⟨k, v⟩ := p
    simp only [setNFT]
    by_cases hk : k = num
    · rw [if_pos hk]
      simp only [lookupNFT, if_pos hk] at h
      injection h with hv
      rw [← hv, hk]
    · rw [if_neg hk]
      simp only [lookupNFT, if_neg hk] at h
      rw [ih h]

theorem setNFT_setNFT (l : List (Nat × NFTRecord)) (num : Nat) (r s : NFTRecord) :
    setNFT (setNFT l num r) num s = setNFT l num s := by
  induction l with
  | nil => simp [setNFT]
  | cons p rest ih =>
    obtain ⟨k, v⟩ := p
    simp only [setNFT]
    by_cases hk : k = num
    · rw [if_pos hk]
      simp [setNFT, hk]
    · rw [if_neg hk]
      simp [setNFT, hk, ih]

theorem lookupIdx_setIdx (O : List (String × List Nat)) (a : String)
    (w : List Nat) (b : String) :
    lookupIdx (setIdx O a w) b =
      if b = a then (lookupIdx O a).map (fun _ => w) else lookupIdx O b := by
  induction O with
  | nil => by_cases hb : b = a <;> simp [setIdx, lookupIdx, hb]
  | cons p rest ih =>
    obtain ⟨k, v⟩ := p
    simp only [setIdx]
    by_cases hk : k = a
    · rw [if_pos hk]
      by_cases hb : b = a
      · have h2 : k = b := hk.trans hb.symm
        simp [lookupIdx, hb, hk, h2]
      · have h2 : ¬(a = b) := fun hc => hb hc.symm
        have h3 : ¬(k = b) := fun hc => hb (hc.symm.trans hk)
        simp [lookupIdx, hb, h2, h3, hk]
    · rw [if_neg hk]
      by_cases hkb : k = b
      · have h2 : ¬(b = a) := fun hc => hk (hkb.trans hc)
        simp [lookupIdx, hkb, h2]
      · simp [lookupIdx, hkb, hk, ih]

theorem eraseIdx_cons_self (k : String) (v : List Nat)
    (rest : List (String × List Nat)) :
    eraseIdx ((k, v) :: rest) k = eraseIdx rest k := by
  simp [eraseIdx, List.filter_cons]

theorem eraseIdx_cons_other (k : String) (v : List Nat)
    (rest : List (String × List Nat)) (a : String) (h : ¬(k = a)) :
    eraseIdx ((k, v) :: rest) a = (k, v) :: eraseIdx rest a := by
  simp [eraseIdx, List.filter_cons, h]

theorem lookupIdx_eraseIdx (O : List (String × List Nat)) (a b : String) :
    lookupIdx (eraseIdx O a) b = if b = a then none else lookupIdx O b := by
  induction O with
  | nil => by_cases hb : b = a <;> simp [eraseIdx, lookupIdx, hb]
  | cons p rest ih =>
    obtain ⟨k, v⟩ := p
    by_cases hk : k = a
    · rw [hk, eraseIdx_cons_self, ih]
      by_cases hb : b = a
      · simp [hb]
      · have h2 : ¬(a = b) := fun hc => hb hc.symm
        simp [lookupIdx, hb, h2]
    · rw [eraseIdx_cons_other k v rest a hk]
      by_cases hkb : k = b
      · have h2 : ¬(b = a) := fun hc => hk (hkb.trans hc)
        simp [lookupIdx, hkb, h2]
      · simp [lookupIdx, hkb, ih]

theorem ownsB_iff (O : List (String × List Nat)) (a : String) (n : Nat) :
    ownsB O a n = true ↔ ∃ lst, lookupIdx O a = some lst ∧ n ∈ lst := by
  unfold ownsB
  cases h : lookupIdx O a <;> simp [List.elem_iff]

theorem ownsB_remove (O : List (String × List Nat)) (addr : String) (num : Nat)
    (a : String) (n : Nat) :
    ownsB (removeFromOwnerIndex O addr num) a n = true ↔
      ownsB O a n = true ∧ ¬(a = addr ∧ n = num) := by
  unfold removeFromOwnerIndex
  cases hL : lookupIdx O addr with
  | none =>
    dsimp only
    by_cases ha : a = addr
    · simp [ownsB, ha, hL]
    · simp [ha]
  | some lst =>
    dsimp only
    by_cases he : (lst.filter (· != num)).isEmpty
    · rw [if_pos he]
      rw [List.isEmpty_iff, List.filter_eq_nil_iff] at he
      by_cases ha : a = addr
      · constructor
        · intro hc
          rw [ownsB_iff] at hc
          obtain ⟨lst2, hl2, _⟩ := hc
          rw [ha, lookupIdx_eraseIdx] at hl2
          simp at hl2
        · rintro ⟨hown, hno⟩
          rw [ownsB_iff] at hown
          obtain ⟨lst2, hl2, hn2⟩ := hown
          rw [ha, hL] at hl2
          injection hl2 with hl2
          subst hl2
          have h3 := he n hn2
          simp at h3
          exact absurd ⟨ha, h3⟩ hno
      · simp [ownsB, lookupIdx_eraseIdx, ha]
    · rw [if_neg he]
      by_cases ha : a = addr
      · simp only [ownsB_iff, lookupIdx_setIdx, ha, if_pos rfl, hL]
        simp [List.mem_filter, bne_iff_ne]
      · simp [ownsB, lookupIdx_setIdx, ha]

theorem lookupIdx_append_single (O : List (String × List Nat)) (a0 : String)
    (v0 : List Nat) (b : String) :
    lookupIdx (O ++ [(a0, v0)]) b =
      match lookupIdx O b with
      | some v => some v
      | none => if b = a0 then some v0 else none := by
  induction O with
  | nil =>
    by_cases hb : a0 = b
    · simp [lookupIdx, hb]
    · have h2 : ¬(b = a0) := fun hc => hb hc.symm
      simp [lookupIdx, hb, h2]
  | cons p rest ih =>
    obtain ⟨k, v⟩ := p
    by_cases hk : k = b
    · simp [lookupIdx, hk]
    · simp [lookupIdx, hk, ih]

theorem ownsB_add (O : List (String × List Nat)) (addr : String) (num : Nat)
    (a : String) (n : Nat) :
    ownsB (addToOwnerIndex O addr num) a n = true ↔
      ownsB O a n = true ∨ (a = addr ∧ n = num) := by
  unfold addToOwnerIndex
  cases hL : lookupIdx O addr with
  | none =>
    dsimp only
    by_cases ha : a = addr
    · simp only [ownsB_iff, lookupIdx_append_single, ha, hL]
      simp [ownsB, ha, hL]
    · simp only [ownsB_iff, lookupIdx_append_single, ha]
      cases hb : lookupIdx O a with
      | none =>
        have h2 : ¬(a = addr) := ha
        simp [ownsB, hb, h2, ha]
      | some w => simp [ownsB, hb, ha]
  | some lst =>
    dsimp only
    by_cases hm : num ∈ lst
    · rw [if_pos hm]
      by_cases ha : a = addr
      · simp only [ownsB, ha, hL, List.elem_iff]
        constructor
        · exact fun h => Or.inl h
        · rintro (h | ⟨_, rfl⟩)
          · exact h
          · exact hm
      · simp [ha]
    · rw [if_neg hm]
      by_cases ha : a = addr
      · simp only [ownsB_iff, lookupIdx_setIdx, ha, if_pos rfl, hL]
        simp [ownsB, ha, hL, List.mem_append]
      · simp [ownsB, lookupIdx_setIdx, ha]

theorem lookupIdx_eq_none_iff (O : List (String × List Nat)) (a : String) :
    lookupIdx O a = none ↔ a ∉ O.map Prod.fst := by
  induction O with
  | nil => simp [lookupIdx]
  | cons p rest ih =>
    obtain ⟨k, v⟩ := p
    by_cases hk : k = a
    · simp [lookupIdx, hk]
    · have h2 : ¬(a = k) := fun hc => hk hc.symm
      simp [lookupIdx, hk, h2, ih]

theorem lookupIdx_mem (O : List (String × List Nat)) (a : String)
    (lst : List Nat) (h : lookupIdx O a = some lst) : (a, lst) ∈ O := by
  induction O with
  | nil => simp [lookupIdx] at h
  | cons p rest ih =>
    obtain ⟨k, v⟩ := p
    by_cases hk : k = a
    · simp only [lookupIdx, if_pos hk] at h
      injection h with h2
      simp [← hk, ← h2]
    · simp only [lookupIdx, if_neg hk] at h
      exact List.mem_cons_of_mem _ (ih h)

theorem setIdx_keys (O : List (String × List Nat)) (a : String) (w : List Nat) :
    (setIdx O a w).map Prod.fst = O.map Prod.fst := by
  induction O with
  | nil => simp [setIdx]
  | cons p rest ih =>
    obtain ⟨k, v⟩ := p
    by_cases hk : k = a
    · simp [setIdx, hk]
    · simp [setIdx, hk, ih]

theorem mem_setIdx (O : List (String × List Nat)) (a : String) (w : List Nat)
    (p : String × List Nat) (h : p ∈ setIdx O a w) : p ∈ O ∨ p = (a, w) := by
  induction O with
  | nil => simp [setIdx] at h
  | cons q rest ih =>
    obtain ⟨k, v⟩ := q
    by_cases hk : k = a
    · rw [setIdx, if_pos hk] at h
      rcases List.mem_cons.mp h with h1 | h1
      · exact Or.inr h1
      · exact Or.inl (List.mem_cons_of_mem _ h1)
    · rw [setIdx, if_neg hk] at h
      rcases List.mem_cons.mp h with h1 | h1
      · exact Or.inl (List.mem_cons.mpr (Or.inl h1))
      · rcases ih h1 with h2 | h2
        · exact Or.inl (List.mem_cons_of_mem _ h2)
        · exact Or.inr h2

theorem mem_eraseIdx (O : List (String × List Nat)) (a : String)
    (p : String × List Nat) (h : p ∈ eraseIdx O a) : p ∈ O := by
  exact List.mem_of_mem_filter h

theorem eraseIdx_keys_sublist (O : List (String × List Nat)) (a : String) :
    ((eraseIdx O a).map Prod.fst).Sublist (O.map Prod.fst) :=
  List.Sublist.map Prod.fst (List.filter_sublist O)

/-! ### Lemmas about `resolveLastVout` and `traceForward` -/

theorem resolveLastVout_cached (P : Provider) (t : String) (nft : NFTRecord)
    (v : Nat) (h : nft.lastVout = some v) :
    resolveLastVout P t nft = (.ok (some v), nft, []) := by
  unfold resolveLastVout
  rw [h]

theorem resolveLastVout_frame (P : Provider) (t : String) (nft : NFTRecord) :
    (resolveLastVout P t nft).2.1.owner = nft.owner ∧
    (resolveLastVout P t nft).2.1.transfers = nft.transfers ∧
    (resolveLastVout P t nft).2.1.lastTx = nft.lastTx ∧
    (resolveLastVout P t nft).2.1.burned = nft.burned ∧
    (resolveLastVout P t nft).2.1.burnTx = nft.burnTx ∧
    (∀ v, nft.lastVout = some v → (resolveLastVout P t nft).2.1.lastVout = some v) := by
  unfold resolveLastVout
  cases h : nft.lastVout with
  | some v => simp [h]
  | none =>
    cases ht : P.tx t with
    | error e => simp [h]
    | ok o =>
      cases o with
      | none => simp [h]
      | some tx =>
        cases hj : findJigVout tx with
        | none => simp [h, hj]
        | some r => simp [h, hj]

theorem traceForwardAux_tx_error (P : Provider) (fuel : Nat) (t : String)
    (v : Nat) (o : String) (acc : List Transfer) (hops : Nat) (rq : List Req)
    (s : String) (e : Err) (hs : P.spender t v = .ok (some s))
    (he : P.tx s = .error e) :
    (traceForwardAux P (fuel + 1) t v o acc hops rq).1 = .error e := by
  simp [traceForwardAux, hs, he]

theorem traceForwardAux_spender_error (P : Provider) (fuel : Nat) (t : String)
    (v : Nat) (o : String) (acc : List Transfer) (hops : Nat) (rq : List Req)
    (e : Err) (hs : P.spender t v = .error e) :
    (traceForwardAux P (fuel + 1) t v o acc hops rq).1 = .error e := by
  simp [traceForwardAux, hs]

theorem traceForwardAux_hops_le (P : Provider) :
    ∀ (fuel : Nat) (t : String) (v : Nat) (o : String) (acc : List Transfer)
      (hops : Nat) (rq rq2 : List Req) (res : TraceResult),
      traceForwardAux P fuel t v o acc hops rq = (.ok res, rq2) →
      res.hops ≤ hops + fuel := by
  intro fuel
  induction fuel with
  | zero =>
    intro t v o acc hops rq rq2 res h
    simp only [traceForwardAux, Prod.mk.injEq, Except.ok.injEq] at h
    obtain ⟨h1, _⟩ := h
    have h3 : res.hops = hops := by rw [← h1]
    omega
  | succ fuel ih =>
    intro t v o acc hops rq rq2 res h
    simp only [traceForwardAux] at h
    cases hs : P.spender t v with
    | error e => rw [hs] at h; simp at h
    | ok o1 =>
      rw [hs] at h
      cases o1 with
      | none =>
        simp only [Prod.mk.injEq, Except.ok.injEq] at h
        obtain ⟨h1, _⟩ := h
        have h3 : res.hops = hops := by rw [← h1]
        omega
      | some s =>
        dsimp only at h
        cases ht : P.tx s with
        | error e => rw [ht] at h; simp at h
        | ok o2 =>
          rw [ht] at h
          cases o2 with
          | none =>
            simp only [Prod.mk.injEq, Except.ok.injEq] at h
            obtain ⟨h1, _⟩ := h
            have h3 : res.hops = hops + 1 := by rw [← h1]
            omega
          | some spendTx =>
            dsimp only at h
            cases hj : findJigVout spendTx with
            | none =>
              rw [hj] at h
              simp only [Prod.mk.injEq, Except.ok.injEq] at h
              obtain ⟨h1, _⟩ := h
              have h3 : res.hops = hops + 1 := by rw [← h1]
              omega
            | some jig =>
              rw [hj] at h
              dsimp only at h
              cases hm : jigNewOwner jig o with
              | some a =>
                rw [hm] at h
                have h2 := ih _ _ _ _ _ _ _ _ h
                omega
              | none =>
                rw [hm] at h
                have h2 := ih _ _ _ _ _ _ _ _ h
                omega

/-! ### Characterization of `processNFT` outcomes -/

/-- Every `processNFT` run either leaves the ledger untouched, or
performs a frame-preserving record update (all error exits and the
`unchanged` exit: only a previously-missing `lastVout` may be
cached), or is the burn update (owner and index untouched), or is the
`changed` update with the owner-index maintenance guarded by an
actual owner change. -/
theorem processNFT_cases (P : Provider) (l : Ledger) (num : Nat)
    (res : Except Err PStatus) (l2 : Ledger) (rqs : List Req)
    (h : processNFT P l num = (res, l2, rqs)) :
    l2 = l ∨
    (∃ rec rec2, lookupNFT l.nfts num = some rec ∧
      l2.nfts = setNFT l.nfts num rec2 ∧ l2.owners = l.owners ∧
      rec2.owner = rec.owner ∧ rec2.transfers = rec.transfers ∧
      rec2.lastTx = rec.lastTx ∧ rec2.burned = rec.burned ∧
      rec2.burnTx = rec.burnTx ∧
      (∀ v, rec.lastVout = some v → rec2.lastVout = some v)) ∨
    (res = .ok .burned ∧ ∃ rec rec2, lookupNFT l.nfts num = some rec ∧
      l2.nfts = setNFT l.nfts num rec2 ∧ l2.owners = l.owners ∧
      rec2.owner = rec.owner) ∨
    (res = .ok .changed ∧ ∃ rec rec2, lookupNFT l.nfts num = some rec ∧
      l2.nfts = setNFT l.nfts num rec2 ∧
      l2.owners = (if rec.owner ≠ rec2.owner then
          addToOwnerIndex (removeFromOwnerIndex l.owners rec.owner num) rec2.owner num
        else l.owners)) := by
  unfold processNFT at h
  cases hN : lookupNFT l.nfts num with
  | none =>
    rw [hN] at h
    simp only [Prod.mk.injEq] at h
    exact Or.inl h.2.1.symm
  | some nft =>
    rw [hN] at h
    dsimp only at h
    cases hT : nft.lastTx with
    | none =>
      rw [hT] at h
      simp only [Prod.mk.injEq] at h
      exact Or.inl h.2.1.symm
    | some t =>
      rw [hT] at h
      dsimp only at h
      by_cases he : t = ""
      · rw [if_pos he] at h
        simp only [Prod.mk.injEq] at h
        exact Or.inl h.2.1.symm
      · rw [if_neg he] at h
        by_cases hb : nft.burned
        · rw [if_pos hb] at h
          simp only [Prod.mk.injEq] at h
          exact Or.inl h.2.1.symm
        · rw [if_neg hb] at h
          rcases hR : resolveLastVout P t nft with ⟨res1, nft1, reqs1⟩
          rw [hR] at h
          have hfr := resolveLastVout_frame P t nft
          rw [hR] at hfr
          dsimp only at hfr
          obtain ⟨hf1, hf2, hf3, hf4, hf5, hf6⟩ := hfr
          cases res1 with
          | error e1 =>
            dsimp only at h
            simp only [Prod.mk.injEq] at h
            obtain ⟨-, h2, -⟩ := h
            subst h2
            exact Or.inr (Or.inl ⟨nft, nft1, rfl, rfl, rfl, hf1, hf2, hf3, hf4, hf5, hf6⟩)
          | ok o1 =>
            cases o1 with
            | none =>
              dsimp only at h
              simp only [Prod.mk.injEq] at h
              obtain ⟨-, h2, -⟩ := h
              subst h2
              exact Or.inr (Or.inl ⟨nft, nft1, rfl, rfl, rfl, hf1, hf2, hf3, hf4, hf5, hf6⟩)
            | some v =>
              dsimp only at h
              cases hs : P.spender t v with
              | error e1 =>
                rw [hs] at h
                dsimp only at h
                simp only [Prod.mk.injEq] at h
                obtain ⟨-, h2, -⟩ := h
                subst h2
                exact Or.inr (Or.inl ⟨nft, nft1, rfl, rfl, rfl, hf1, hf2, hf3, hf4, hf5, hf6⟩)
              | ok s1 =>
                rw [hs] at h
                cases s1 with
                | none =>
                  dsimp only at h
                  simp only [Prod.mk.injEq] at h
                  obtain ⟨-, h2, -⟩ := h
                  subst h2
                  exact Or.inr (Or.inl ⟨nft, nft1, rfl, rfl, rfl, hf1, hf2, hf3, hf4, hf5, hf6⟩)
                | some s =>
                  dsimp only at h
                  cases ht2 : P.tx s with
                  | error e1 =>
                    rw [ht2] at h
                    dsimp only at h
                    simp only [Prod.mk.injEq] at h
                    obtain ⟨-, h2, -⟩ := h
                    subst h2
                    exact Or.inr (Or.inl ⟨nft, nft1, rfl, rfl, rfl, hf1, hf2, hf3, hf4, hf5, hf6⟩)
                  | ok t1 =>
                    rw [ht2] at h
                    cases t1 with
                    | none =>
                      dsimp only at h
                      simp only [Prod.mk.injEq] at h
                      obtain ⟨-, h2, -⟩ := h
                      subst h2
                      exact Or.inr (Or.inl ⟨nft, nft1, rfl, rfl, rfl, hf1, hf2, hf3, hf4, hf5, hf6⟩)
                    | some spendTx =>
                      dsimp only at h
                      cases hj : findJigVout spendTx with
                      | none =>
                        rw [hj] at h
                        dsimp only at h
                        simp only [Prod.mk.injEq] at h
                        obtain ⟨hres, h2, -⟩ := h
                        subst h2
                        refine Or.inr (Or.inr (Or.inl ⟨hres.symm, nft, _, rfl,
                          setNFT_setNFT l.nfts num nft1 _, rfl, hf1⟩))
                      | some jig =>
                        rw [hj] at h
                        dsimp only at h
                        cases hm : jigNewOwner jig nft1.owner with
                        | some a =>
                          rw [hm] at h
                          dsimp only at h
                          rcases hTr : traceForward P s jig.vout a with ⟨tr, treqs⟩
                          rw [hTr] at h
                          cases tr with
                          | error e1 =>
                            dsimp only at h
                            simp only [Prod.mk.injEq] at h
                            obtain ⟨-, h2, -⟩ := h
                            subst h2
                            exact Or.inr (Or.inl ⟨nft, nft1, rfl, rfl, rfl, hf1, hf2, hf3, hf4, hf5, hf6⟩)
                          | ok r =>
                            dsimp only at h
                            simp only [Prod.mk.injEq] at h
                            obtain ⟨hres, h2, -⟩ := h
                            subst h2
                            refine Or.inr (Or.inr (Or.inr ⟨hres.symm, nft,
                              { nft1 with
                                transfers := nft1.transfers ++
                                  ([⟨s, "send", nft1.owner, some a, spendTx.blockheight⟩] ++ r.newTransfers)
                                owner := r.owner
                                lastTx := some r.lastTx
                                lastVout := some r.lastVout },
                              rfl, setNFT_setNFT l.nfts num nft1 _, ?_⟩))
                            rw [hf1]
                        | none =>
                          rw [hm] at h
                          dsimp only at h
                          rcases hTr : traceForward P s jig.vout nft1.owner with ⟨tr, treqs⟩
                          rw [hTr] at h
                          cases tr with
                          | error e1 =>
                            dsimp only at h
                            simp only [Prod.mk.injEq] at h
                            obtain ⟨-, h2, -⟩ := h
                            subst h2
                            exact Or.inr (Or.inl ⟨nft, nft1, rfl, rfl, rfl, hf1, hf2, hf3, hf4, hf5, hf6⟩)
                          | ok r =>
                            dsimp only at h
                            simp only [Prod.mk.injEq] at h
                            obtain ⟨hres, h2, -⟩ := h
                            subst h2
                            refine Or.inr (Or.inr (Or.inr ⟨hres.symm, nft,
                              { nft1 with
                                transfers := nft1.transfers ++ ([] ++ r.newTransfers)
                                owner := r.owner
                                lastTx := some r.lastTx
                                lastVout := some r.lastVout },
                              rfl, setNFT_setNFT l.nfts num nft1 _, ?_⟩))
                            rw [hf1]

/-! ### Generic preservation of a ledger predicate across a pass -/

theorem mainPassAux_preserves (P : Provider) (Q : Ledger → Prop)
    (hstep : ∀ l m, Q l → Q (processNFT P l m).2.1) :
    ∀ (nums : List Nat) (l : Ledger), Q l → Q (mainPassAux P nums l).1 := by
  intro nums
  induction nums with
  | nil => intro l hQ; simpa [mainPassAux] using hQ
  | cons m rest ih =>
    intro l hQ
    have h1 := hstep l m hQ
    rcases hE : processNFT P l m with ⟨resx, l1, rqsx⟩
    rw [hE] at h1
    simp only [mainPassAux]
    rw [hE]
    cases resx with
    | error e => dsimp only; exact ih l1 h1
    | ok s => dsimp only; exact ih l1 h1

theorem retryRoundAux_preserves (P : Provider) (Q : Ledger → Prop)
    (hstep : ∀ l m, Q l → Q (processNFT P l m).2.1) :
    ∀ (nums : List Nat) (l : Ledger), Q l → Q (retryRoundAux P nums l).1 := by
  intro nums
  induction nums with
  | nil => intro l hQ; simpa [retryRoundAux] using hQ
  | cons m rest ih =>
    intro l hQ
    have h1 := hstep l m hQ
    rcases hE : processNFT P l m with ⟨resx, l1, rqsx⟩
    rw [hE] at h1
    simp only [retryRoundAux]
    rw [hE]
    cases resx with
    | error e => dsimp only; exact ih l1 h1
    | ok s => dsimp only; exact ih l1 h1

theorem retryStep_preserves (P : Provider) (Q : Ledger → Prop)
    (hstep : ∀ l m, Q l → Q (processNFT P l m).2.1)
    (x : Ledger × List Nat) (hx : Q x.1) :
    Q (if x.2.isEmpty = true then x else retryRoundAux P x.2 x.1).1 := by
  by_cases hc : x.2.isEmpty = true
  · rw [if_pos hc]; exact hx
  · rw [if_neg hc]; exact retryRoundAux_preserves P Q hstep x.2 x.1 hx

theorem runPass_preserves (P : Provider) (Q : Ledger → Prop)
    (hstep : ∀ l m, Q l → Q (processNFT P l m).2.1) (l : Ledger) (hQ : Q l) :
    Q (runPass P l).1 := by
  unfold runPass
  dsimp only
  exact retryStep_preserves P Q hstep
    (if (mainPassAux P (sortAsc (List.map Prod.fst l.nfts)) l).2.2.isEmpty = true then
      ((mainPassAux P (sortAsc (List.map Prod.fst l.nfts)) l).1,
        (mainPassAux P (sortAsc (List.map Prod.fst l.nfts)) l).2.2)
    else
      retryRoundAux P (mainPassAux P (sortAsc (List.map Prod.fst l.nfts)) l).2.2
        (mainPassAux P (sortAsc (List.map Prod.fst l.nfts)) l).1)
    (retryStep_preserves P Q hstep
      ((mainPassAux P (sortAsc (List.map Prod.fst l.nfts)) l).1,
        (mainPassAux P (sortAsc (List.map Prod.fst l.nfts)) l).2.2)
      (mainPassAux_preserves P Q hstep (sortAsc (List.map Prod.fst l.nfts)) l hQ))

/-! ### The owner-index consistency invariant -/

/-- For every address `a` and every tracked asset `n`, `n` lies in
the owner-index set of `a` exactly when the owner of the asset record is `a`. -/
def OwnerInv (l : Ledger) : Prop :=
  ∀ (a : String) (n : Nat) (rec : NFTRecord),
    lookupNFT l.nfts n = some rec → (ownsB l.owners a n = true ↔ rec.owner = a)

theorem processNFT_preserves_inv (P : Provider) (l : Ledger) (num : Nat)
    (h : OwnerInv l) : OwnerInv (processNFT P l num).2.1 := by
  rcases hE : processNFT P l num with ⟨res, l2, rqs⟩
  rcases processNFT_cases P l num res l2 rqs hE with hA | hB | hC | hD
  · dsimp only
    rw [hA]
    exact h
  · obtain ⟨rec, rec2, hN, hn, ho, hw, -, -, -, -, -⟩ := hB
    dsimp only
    intro a n rec3 hl3
    rw [hn] at hl3
    rw [ho]
    by_cases hnm : n = num
    · subst hnm
      rw [lookupNFT_setNFT_self l.nfts n rec2 rec hN] at hl3
      injection hl3 with hl3
      rw [← hl3, hw]
      exact h a n rec hN
    · rw [lookupNFT_setNFT_other l.nfts num n rec2 hnm] at hl3
      exact h a n rec3 hl3
  · obtain ⟨-, rec, rec2, hN, hn, ho, hw⟩ := hC
    dsimp only
    intro a n rec3 hl3
    rw [hn] at hl3
    rw [ho]
    by_cases hnm : n = num
    · subst hnm
      rw [lookupNFT_setNFT_self l.nfts n rec2 rec hN] at hl3
      injection hl3 with hl3
      rw [← hl3, hw]
      exact h a n rec hN
    · rw [lookupNFT_setNFT_other l.nfts num n rec2 hnm] at hl3
      exact h a n rec3 hl3
  · obtain ⟨-, rec, rec2, hN, hn, ho⟩ := hD
    dsimp only
    intro a n rec3 hl3
    rw [hn] at hl3
    rw [ho]
    by_cases hnm : n = num
    · subst hnm
      rw [lookupNFT_setNFT_self l.nfts n rec2 rec hN] at hl3
      injection hl3 with hl3
      rw [← hl3]
      by_cases hc : rec.owner = rec2.owner
      · rw [if_neg (by simpa using hc)]
        rw [← hc]
        exact h a n rec hN
      · rw [if_pos (by simpa using hc)]
        rw [ownsB_add, ownsB_remove]
        have hinv := h a n rec hN
        constructor
        · rintro (⟨hown, hno⟩ | ⟨ha, -⟩)
          · exact absurd ⟨(hinv.mp hown).symm, rfl⟩ hno
          · exact ha.symm
        · intro hrec
          exact Or.inr ⟨hrec.symm, rfl⟩
    · rw [lookupNFT_setNFT_other l.nfts num n rec2 hnm] at hl3
      have hinv := h a n rec3 hl3
      by_cases hc : rec.owner = rec2.owner
      · rw [if_neg (by simpa using hc)]
        exact hinv
      · rw [if_pos (by simpa using hc)]
        rw [ownsB_add, ownsB_remove]
        constructor
        · rintro (⟨hown, -⟩ | ⟨-, hnn⟩)
          · exact hinv.mp hown
          · exact absurd hnn hnm
        · intro hrec
          exact Or.inl ⟨hinv.mpr hrec, fun hcc => hnm hcc.2⟩

/-! ### Frame lemmas and the per-claim theorems -/

theorem processNFT_lookup_other (P : Provider) (l : Ledger) (m k : Nat)
    (hk : k ≠ m) :
    lookupNFT (processNFT P l m).2.1.nfts k = lookupNFT l.nfts k := by
  rcases hE : processNFT P l m with ⟨res, l2, rqs⟩
  rcases processNFT_cases P l m res l2 rqs hE with hA | hB | hC | hD
  · rw [hA]
  · obtain ⟨rec, rec2, -, hn, -⟩ := hB
    dsimp only
    rw [hn]
    exact lookupNFT_setNFT_other l.nfts m k rec2 hk
  · obtain ⟨-, rec, rec2, -, hn, -⟩ := hC
    dsimp only
    rw [hn]
    exact lookupNFT_setNFT_other l.nfts m k rec2 hk
  · obtain ⟨-, rec, rec2, -, hn, -⟩ := hD
    dsimp only
    rw [hn]
    exact lookupNFT_setNFT_other l.nfts m k rec2 hk

theorem processNFT_burned_noop (P : Provider) (l : Ledger) (num : Nat)
    (rec : NFTRecord) (hN : lookupNFT l.nfts num = some rec)
    (hb : rec.burned = true) :
    (processNFT P l num).2.1 = l ∧ (processNFT P l num).2.2 = [] ∧
    ((processNFT P l num).1 = .ok .skip ∨ (processNFT P l num).1 = .ok .unchanged) := by
  unfold processNFT
  rw [hN]
  dsimp only
  cases hT : rec.lastTx with
  | none => exact ⟨rfl, rfl, Or.inl rfl⟩
  | some t =>
    dsimp only
    by_cases he : t = ""
    · rw [if_pos he]
      exact ⟨rfl, rfl, Or.inl rfl⟩
    · rw [if_neg he, if_pos hb]
      exact ⟨rfl, rfl, Or.inr rfl⟩

/-- C9 (burn finality): an asset whose record is already burned is
returned by `processNFT` as `skip`/`unchanged` with the ledger
untouched and zero provider requests, and a whole reconciliation
pass leaves its record exactly as it was. -/
theorem burn_finality (P : Provider) (l : Ledger) (num : Nat)
    (rec : NFTRecord) (hN : lookupNFT l.nfts num = some rec)
    (hb : rec.burned = true) :
    (processNFT P l num).2.1 = l ∧ (processNFT P l num).2.2 = [] ∧
    ((processNFT P l num).1 = .ok .skip ∨ (processNFT P l num).1 = .ok .unchanged) ∧
    lookupNFT (runPass P l).1.nfts num = some rec := by
  obtain ⟨h1, h2, h3⟩ := processNFT_burned_noop P l num rec hN hb
  refine ⟨h1, h2, h3, ?_⟩
  refine runPass_preserves P (fun lx => lookupNFT lx.nfts num = some rec) ?_ l hN
  intro lx m hQ
  by_cases hm : m = num
  · subst hm
    obtain ⟨hx1, -, -⟩ := processNFT_burned_noop P lx m rec hQ hb
    rw [hx1]
    exact hQ
  · rw [processNFT_lookup_other P lx m num (fun hc => hm hc.symm)]
    exact hQ

/-- C7 (per-asset atomicity on failure): when `processNFT` throws, the
owner index is untouched, every other record is untouched, and the
own record of the failed asset keeps its owner, transfers, lastTx, burned
flag, burnTx, and any previously stored lastVout. -/
theorem processNFT_error_atomicity (P : Provider) (l : Ledger) (num : Nat)
    (e : Err) (l2 : Ledger) (rqs : List Req)
    (h : processNFT P l num = (.error e, l2, rqs)) :
    l2.owners = l.owners ∧
    (∀ m, m ≠ num → lookupNFT l2.nfts m = lookupNFT l.nfts m) ∧
    ∀ rec, lookupNFT l.nfts num = some rec →
      ∃ rec2, lookupNFT l2.nfts num = some rec2 ∧
        rec2.owner = rec.owner ∧ rec2.transfers = rec.transfers ∧
        rec2.lastTx = rec.lastTx ∧ rec2.burned = rec.burned ∧
        rec2.burnTx = rec.burnTx ∧
        ∀ v, rec.lastVout = some v → rec2.lastVout = some v := by
  rcases processNFT_cases P l num (.error e) l2 rqs h with hA | hB | hC | hD
  · subst hA
    exact ⟨rfl, fun m _ => rfl,
      fun rec hN => ⟨rec, hN, rfl, rfl, rfl, rfl, rfl, fun v hv => hv⟩⟩
  · obtain ⟨rec, rec2, hN, hn, ho, hw1, hw2, hw3, hw4, hw5, hw6⟩ := hB
    refine ⟨ho, ?_, ?_⟩
    · intro m hm
      rw [hn]
      exact lookupNFT_setNFT_other l.nfts num m rec2 hm
    · intro rec3 hN3
      have hrr : rec = rec3 := by
        rw [hN] at hN3
        injection hN3
      subst hrr
      refine ⟨rec2, ?_, hw1, hw2, hw3, hw4, hw5, hw6⟩
      rw [hn]
      exact lookupNFT_setNFT_self l.nfts num rec2 rec hN
  · obtain ⟨hres, -⟩ := hC
    exact absurd hres (by simp)
  · obtain ⟨hres, -⟩ := hD
    exact absurd hres (by simp)

/-- C1 (index consistency): a reconciliation pass preserves the
invariant that an asset ID is in the owner-index set of an address
exactly when that address is the owner of the record. -/
theorem ownerIndex_consistency_after_pass (P : Provider) (l : Ledger)
    (h : OwnerInv l) : OwnerInv (runPass P l).1 :=
  runPass_preserves P OwnerInv (fun lx m hx => processNFT_preserves_inv P lx m hx) l h

/-! ### Concrete fixtures: example transactions, ledgers, providers -/

/-- A transaction whose only output is a standard dust output to `a`
(a jig move). -/
def txStdTo (a : String) (bh : Nat) : Tx :=
  ⟨"", [⟨0, 546, some ⟨none, some "pubkeyhash", some [a]⟩⟩], bh⟩

/-- A transaction with no recognizable jig output (an ordinary
payment far above the dust ceiling). -/
def txPlain (bh : Nat) : Tx :=
  ⟨"", [⟨0, 50000000, some ⟨none, some "pubkeyhash", some ["X"]⟩⟩], bh⟩

/-- A transaction whose only output is an escrow (orderlock) output:
nonstandard script, dust value, no address. -/
def txLock (bh : Nat) : Tx :=
  ⟨"", [⟨0, 546, some ⟨none, some "nonstandard", none⟩⟩], bh⟩

def rec0 : NFTRecord := ⟨"A", some "t0", some 0, [], false, none⟩

def ledg0 : Ledger := ⟨[(1, rec0)], [("A", [1])]⟩

/-- Chain: `t0:0` is spent by `t1` (jig to `B`), whose jig output is
spent by `t2`, which has no jig output (mid-trace destruction). -/
def chainP : Provider :=
  ⟨fun t v =>
      if t = "t0" ∧ v = 0 then .ok (some "t1")
      else if t = "t1" ∧ v = 0 then .ok (some "t2")
      else .ok none,
   fun s =>
      if s = "t1" then .ok (some (txStdTo "B" 7))
      else if s = "t2" then .ok (some (txPlain 8))
      else .ok none⟩

/-- A provider that reports spends but cannot deliver any transaction. -/
def failP : Provider := ⟨fun _ _ => .ok (some "s1"), fun _ => .error "boom"⟩

/-- A provider whose every request errors. -/
def errP : Provider := ⟨fun _ _ => .error "net", fun _ => .error "net"⟩

def recBurned : NFTRecord := ⟨"A", some "t0", some 0, [], true, some "tb"⟩

def ledgBurned : Ledger := ⟨[(2, recBurned)], [("A", [2])]⟩

/-- A record with no cached `lastVout`. -/
def recNoV : NFTRecord := ⟨"A", some "t0", none, [], false, none⟩

def ledgNoV : Ledger := ⟨[(3, recNoV)], [("A", [3])]⟩

/-- Delivers `t0` (standard jig to `A` at vout 0) so the vout can be
resolved and cached, but errors on every spend lookup. -/
def cacheP : Provider :=
  ⟨fun _ _ => .error "net",
   fun s => if s = "t0" then .ok (some (txStdTo "A" 5)) else .ok none⟩

/-- The ledger `ledgNoV` after `processNFT` cached the vout and then
failed on the spend lookup. -/
def ledgNoVCached : Ledger :=
  ⟨[(3, ⟨"A", some "t0", some 0, [], false, none⟩)], [("A", [3])]⟩

/-- The owner-index invariant for a one-asset ledger. -/
theorem ownerInv_single (num : Nat) (rec : NFTRecord) (a0 : String)
    (ho : rec.owner = a0) : OwnerInv ⟨[(num, rec)], [(a0, [num])]⟩ := by
  intro a n rec3 hlk
  simp only [lookupNFT] at hlk
  by_cases h1 : num = n
  · rw [if_pos h1] at hlk
    injection hlk with hlk
    rw [ownsB_iff]
    subst hlk
    subst h1
    by_cases ha : a0 = a
    · simp [lookupIdx, ha, ho]
    · have h2 : ¬(a = a0) := fun hc => ha hc.symm
      simp [lookupIdx, ha, ho, h2]
  · rw [if_neg h1] at hlk
    simp [lookupNFT] at hlk

/-- Witness for C1 at a concrete ledger and provider under which the
asset moves and is later destroyed mid-trace. -/
theorem ownerIndex_consistency_after_pass_witness :
    OwnerInv (runPass chainP ledg0).1 :=
  ownerIndex_consistency_after_pass chainP ledg0
    (ownerInv_single 1 rec0 "A" rfl)

/-- Witness for C7: the spend lookup fails after the vout was freshly
cached; everything but the fresh cache is untouched. -/
theorem processNFT_error_atomicity_witness :
    ledgNoVCached.owners = ledgNoV.owners ∧
    (∀ m, m ≠ 3 → lookupNFT ledgNoVCached.nfts m = lookupNFT ledgNoV.nfts m) ∧
    ∀ rec, lookupNFT ledgNoV.nfts 3 = some rec →
      ∃ rec2, lookupNFT ledgNoVCached.nfts 3 = some rec2 ∧
        rec2.owner = rec.owner ∧ rec2.transfers = rec.transfers ∧
        rec2.lastTx = rec.lastTx ∧ rec2.burned = rec.burned ∧
        rec2.burnTx = rec.burnTx ∧
        ∀ v, rec.lastVout = some v → rec2.lastVout = some v :=
  processNFT_error_atomicity cacheP ledgNoV 3 "net" ledgNoVCached
    [.tx "t0", .spent "t0" 0] (by decide)

/-- Witness for C9 at a burned record and a provider whose every
request errors (so any lookup would fail the call). -/
theorem burn_finality_witness :
    (processNFT errP ledgBurned 2).2.1 = ledgBurned ∧
    (processNFT errP ledgBurned 2).2.2 = [] ∧
    ((processNFT errP ledgBurned 2).1 = .ok .skip ∨
      (processNFT errP ledgBurned 2).1 = .ok .unchanged) ∧
    lookupNFT (runPass errP ledgBurned).1.nfts 2 = some recBurned :=
  burn_finality errP ledgBurned 2 recBurned (by rfl) (by rfl)

/-! ### Stable ledgers: the second-pass/idempotence analysis -/

/-- A record the pass can only re-answer `skip`/`unchanged` on: no
position, empty position, already burned, or a cached vout whose
position the provider reports unspent. -/
def stableRecB (P : Provider) (rec : NFTRecord) : Bool :=
  match rec.lastTx with
  | none => true
  | some t =>
    if t = "" then true
    else if rec.burned then true
    else
      match rec.lastVout with
      | none => false
      | some v =>
        match P.spender t v with
        | .ok none => true
        | _ => false

theorem lookupNFT_mem (l : List (Nat × NFTRecord)) (n : Nat) (rec : NFTRecord)
    (h : lookupNFT l n = some rec) : (n, rec) ∈ l := by
  induction l with
  | nil => simp [lookupNFT] at h
  | cons p rest ih =>
    obtain ⟨k, v⟩ := p
    by_cases hk : k = n
    · simp only [lookupNFT, if_pos hk] at h
      injection h with h2
      simp [← hk, ← h2]
    · simp only [lookupNFT, if_neg hk] at h
      exact List.mem_cons_of_mem _ (ih h)

theorem mem_keys_lookupNFT (l : List (Nat × NFTRecord)) (n : Nat)
    (h : n ∈ l.map Prod.fst) : ∃ rec, lookupNFT l n = some rec := by
  induction l with
  | nil => simp at h
  | cons p rest ih =>
    obtain ⟨k, v⟩ := p
    by_cases hk : k = n
    · exact ⟨v, by simp [lookupNFT, hk]⟩
    · simp only [List.map_cons, List.mem_cons] at h
      rcases h with h | h
      · exact absurd h.symm hk
      · obtain ⟨rec, hr⟩ := ih h
        exact ⟨rec, by simp [lookupNFT, hk, hr]⟩

theorem mem_insertAsc (n m : Nat) (lst : List Nat) (h : m ∈ insertAsc n lst) :
    m = n ∨ m ∈ lst := by
  induction lst with
  | nil => simpa [insertAsc] using h
  | cons x rest ih =>
    simp only [insertAsc] at h
    by_cases hc : n ≤ x
    · rw [if_pos hc] at h
      simpa using h
    · rw [if_neg hc] at h
      rcases List.mem_cons.mp h with h1 | h1
      · exact Or.inr (List.mem_cons.mpr (Or.inl h1))
      · rcases ih h1 with h2 | h2
        · exact Or.inl h2
        · exact Or.inr (List.mem_cons.mpr (Or.inr h2))

theorem mem_sortAsc (m : Nat) (xs : List Nat) (h : m ∈ sortAsc xs) : m ∈ xs := by
  induction xs with
  | nil => simp [sortAsc] at h
  | cons x rest ih =>
    simp only [sortAsc, List.foldr_cons] at h
    rcases mem_insertAsc x m _ h with h1 | h1
    · simp [h1]
    · exact List.mem_cons_of_mem _ (ih h1)

/-- On a stable record, `processNFT` leaves the ledger untouched and
answers `skip` or `unchanged`. -/
theorem processNFT_stable (P : Provider) (l : Ledger) (num : Nat)
    (rec : NFTRecord) (hN : lookupNFT l.nfts num = some rec)
    (hs : stableRecB P rec = true) :
    (processNFT P l num).2.1 = l ∧
    ((processNFT P l num).1 = .ok .skip ∨ (processNFT P l num).1 = .ok .unchanged) := by
  unfold processNFT
  unfold stableRecB at hs
  rw [hN]
  dsimp only
  cases hT : rec.lastTx with
  | none => exact ⟨rfl, Or.inl rfl⟩
  | some t =>
    rw [hT] at hs
    dsimp only at hs ⊢
    by_cases he : t = ""
    · rw [if_pos he]
      exact ⟨rfl, Or.inl rfl⟩
    · rw [if_neg he] at hs ⊢
      cases hb : rec.burned with
      | true =>
        rw [if_pos rfl]
        exact ⟨rfl, Or.inr rfl⟩
      | false =>
        rw [hb] at hs
        rw [if_neg (by simp)]
        simp only [Bool.false_eq_true, if_false] at hs
        cases hv : rec.lastVout with
        | none => rw [hv] at hs; simp at hs
        | some v =>
          rw [hv] at hs
          dsimp only at hs
          rw [resolveLastVout_cached P t rec v hv]
          dsimp only
          cases hsp : P.spender t v with
          | error e => rw [hsp] at hs; simp at hs
          | ok o =>
            cases o with
            | some s => rw [hsp] at hs; simp at hs
            | none =>
              dsimp only
              rw [setNFT_self l.nfts num rec hN]
              exact ⟨rfl, Or.inr rfl⟩

theorem mainPassAux_stable (P : Provider) (l : Ledger)
    (hstab : ∀ p ∈ l.nfts, stableRecB P p.2 = true) :
    ∀ nums : List Nat, (∀ m ∈ nums, m ∈ l.nfts.map Prod.fst) →
      (mainPassAux P nums l).1 = l ∧
      (∀ q ∈ (mainPassAux P nums l).2.1, q.2 = .ok .skip ∨ q.2 = .ok .unchanged) ∧
      (mainPassAux P nums l).2.2 = [] := by
  intro nums
  induction nums with
  | nil => intro hin; simp [mainPassAux]
  | cons m rest ih =>
    intro hin
    obtain ⟨rec, hrec⟩ := mem_keys_lookupNFT l.nfts m (hin m (by simp))
    have hsm := hstab (m, rec) (lookupNFT_mem l.nfts m rec hrec)
    obtain ⟨hl1, hst⟩ := processNFT_stable P l m rec hrec hsm
    rcases hE : processNFT P l m with ⟨res, l1, rq⟩
    rw [hE] at hl1 hst
    dsimp only at hl1 hst
    subst hl1
    obtain ⟨ih1, ih2, ih3⟩ := ih (fun k hk => hin k (List.mem_cons_of_mem _ hk))
    cases res with
    | error e =>
      rcases hst with hst | hst <;> simp at hst
    | ok s =>
      simp only [mainPassAux]
      rw [hE]
      dsimp only
      refine ⟨ih1, ?_, ih3⟩
      intro q hq
      rcases List.mem_cons.mp hq with hq | hq
      · subst hq
        rcases hst with hst | hst
        · exact Or.inl (by injection hst with h2; rw [h2])
        · exact Or.inr (by injection hst with h2; rw [h2])
      · exact ih2 q hq

theorem runPass_stable (P : Provider) (l : Ledger)
    (hstab : ∀ p ∈ l.nfts, stableRecB P p.2 = true) :
    (runPass P l).1 = l ∧
    (∀ q ∈ (runPass P l).2.1, q.2 = .ok .skip ∨ q.2 = .ok .unchanged) ∧
    (runPass P l).2.2 = [] := by
  obtain ⟨h1, h2, h3⟩ := mainPassAux_stable P l hstab
    (sortAsc (List.map Prod.fst l.nfts))
    (fun m hm => mem_sortAsc m (List.map Prod.fst l.nfts) hm)
  unfold runPass
  dsimp only
  rw [h3]
  simp only [List.isEmpty_nil, if_true]
  exact ⟨h1, h2, trivial⟩

/-- C4 amended: when the first pass leaves every asset inert (no
position, burned, or a cached position the provider reports
unspent), a second pass with the same provider returns the identical
ledger, resolves every asset to `skip`/`unchanged`, and fails on
nothing. -/
theorem second_pass_identical_when_stable (P : Provider) (l0 : Ledger)
    (hstab : ∀ p ∈ (runPass P l0).1.nfts, stableRecB P p.2 = true) :
    (runPass P (runPass P l0).1).1 = (runPass P l0).1 ∧
    (∀ q ∈ (runPass P (runPass P l0).1).2.1,
      q.2 = .ok .skip ∨ q.2 = .ok .unchanged) ∧
    (runPass P (runPass P l0).1).2.2 = [] :=
  runPass_stable P (runPass P l0).1 hstab

/-- A provider under which everything is unspent. -/
def unspentP : Provider := ⟨fun _ _ => .ok none, fun _ => .ok none⟩

/-- Witness for the amended C4. -/
theorem second_pass_identical_when_stable_witness :
    (runPass unspentP (runPass unspentP ledg0).1).1 = (runPass unspentP ledg0).1 ∧
    (∀ q ∈ (runPass unspentP (runPass unspentP ledg0).1).2.1,
      q.2 = .ok .skip ∨ q.2 = .ok .unchanged) ∧
    (runPass unspentP (runPass unspentP ledg0).1).2.2 = [] :=
  second_pass_identical_when_stable unspentP ledg0 (by decide)

/-- Counterexample to C4 as stated: under `chainP` (same provider
answers both times) the first pass ends with the asset at a position
whose spend chain leads to a jig-less transaction; the second pass
then changes the ledger (marks the asset burned) and resolves it to
`burned`, not `unchanged`. -/
theorem runPass_not_idempotent_cx :
    (runPass chainP (runPass chainP ledg0).1).1 ≠ (runPass chainP ledg0).1 ∧
    (1, Except.ok PStatus.burned) ∈ (runPass chainP (runPass chainP ledg0).1).2.1 := by
  decide

/-! ### Destruction handling -/

/-- Counterexample to C2 as stated: under `chainP` the asset moves to
`B` in `t1` and the jig output of `t1` is spent by `t2`, which the
classifier cannot classify (`findJigVout = none`) — a destruction at
the second hop of the trace.  The pass nevertheless ends with the
asset `changed`, `burned = false`, no `burnTx`, and no burn event. -/
theorem destruction_at_later_hop_not_burned_cx :
    chainP.spender "t1" 0 = .ok (some "t2") ∧
    chainP.tx "t2" = .ok (some (txPlain 8)) ∧
    findJigVout (txPlain 8) = none ∧
    (runPass chainP ledg0).2.1 = [(1, .ok .changed)] ∧
    lookupNFT (runPass chainP ledg0).1.nfts 1 =
      some ⟨"B", some "t1", some 0, [⟨"t1", "send", "A", some "B", 7⟩], false, none⟩ := by
  decide

/-- The record after the terminal burn update: `burned` set, `burnTx`
recorded, one burn event appended, owner unchanged. -/
def burnedRec (rec : NFTRecord) (s : String) (spendTx : Tx) : NFTRecord :=
  { rec with
    burned := true
    burnTx := some s
    transfers := rec.transfers ++ [⟨s, "burn", rec.owner, none, spendTx.blockheight⟩] }

/-- C2 amended: destruction at the **first** hop — the spend of the
checkpointed position of the asset by a transaction with no recognizable
state output — makes `processNFT` return `burned` with `burned` set,
`burnTx` the spending transaction, exactly one burn event appended,
and the owner unchanged.  (Destruction at a later hop merely stops
the trace; it is detected on the next pass.) -/
theorem firstHop_destruction_burns (P : Provider) (l : Ledger) (num : Nat)
    (rec : NFTRecord) (t : String) (v : Nat) (s : String) (spendTx : Tx)
    (hN : lookupNFT l.nfts num = some rec) (ht : rec.lastTx = some t)
    (hne : t ≠ "") (hb : rec.burned = false) (hv : rec.lastVout = some v)
    (hs : P.spender t v = .ok (some s)) (htx : P.tx s = .ok (some spendTx))
    (hj : findJigVout spendTx = none) :
    processNFT P l num = (.ok .burned,
      { l with nfts := setNFT l.nfts num (burnedRec rec s spendTx) },
      [.spent t v, .tx s]) := by
  unfold processNFT burnedRec
  rw [hN]
  dsimp only
  rw [ht]
  dsimp only
  rw [if_neg hne, if_neg (by simp [hb])]
  rw [resolveLastVout_cached P t rec v hv]
  dsimp only
  rw [hs]
  dsimp only
  rw [htx]
  dsimp only
  rw [hj]
  dsimp only
  rw [setNFT_setNFT, ht]
  rfl

/-- First-hop destruction provider: `t0:0` is spent by `t2`, which
has no jig output. -/
def burnP : Provider :=
  ⟨fun t v => if t = "t0" ∧ v = 0 then .ok (some "t2") else .ok none,
   fun s => if s = "t2" then .ok (some (txPlain 8)) else .ok none⟩

/-- Witness for the amended C2. -/
theorem firstHop_destruction_burns_witness :
    processNFT burnP ledg0 1 = (.ok .burned,
      { ledg0 with nfts := setNFT ledg0.nfts 1 (burnedRec rec0 "t2" (txPlain 8)) },
      [.spent "t0" 0, .tx "t2"]) :=
  firstHop_destruction_burns burnP ledg0 1 rec0 "t0" 0 "t2" (txPlain 8)
    rfl rfl (by decide) rfl rfl (by decide) (by decide) (by decide)

/-! ### Escrow passthrough -/

/-- The record after one real transfer discovered by the trace. -/
def movedRec (rec : NFTRecord) (B t2 : String) (jv : Nat)
    (tr : List Transfer) : NFTRecord :=
  { rec with
    owner := B
    lastTx := some t2
    lastVout := some jv
    transfers := rec.transfers ++ tr }

theorem jigNewOwner_orderLock (ev : Nat) (o : String) :
    jigNewOwner ⟨ev, none, true⟩ o = none := rfl

/-- A two-hop trace: the cursor passes an escrow hop (no event, owner
kept), then a standard hop to `B` (one `send` event), then finds the
tip unspent. -/
theorem traceForwardAux_escrow_two_hops (P : Provider) (fuel : Nat)
    (t1 : String) (e : Nat) (own t2 : String) (tx2 : Tx) (jv : Nat)
    (B : String) (rq : List Req)
    (hs2 : P.spender t1 e = .ok (some t2)) (htx2 : P.tx t2 = .ok (some tx2))
    (hj2 : findJigVout tx2 = some ⟨jv, some B, false⟩)
    (hB1 : ¬(B = "")) (hB2 : ¬(B = own))
    (hs3 : P.spender t2 jv = .ok none) :
    traceForwardAux P (fuel + 1 + 1) t1 e own [] 0 rq =
      (.ok ⟨B, t2, jv, [⟨t2, "send", own, some B, tx2.blockheight⟩], 1⟩,
        (rq ++ [.spent t1 e, .tx t2]) ++ [.spent t2 jv]) := by
  simp [traceForwardAux, hs2, htx2, hj2, jigNewOwner, hB1, hB2, hs3]

/-- C5 (escrow passthrough): a position spent into an escrow output,
later spent into a standard dust output to a different address `B`,
yields exactly one `send` event from the old owner to `B`, no event
for the escrow hop, final owner `B`, and the matching owner-index
move. -/
theorem escrow_passthrough_single_send (P : Provider) (l : Ledger) (num : Nat)
    (rec : NFTRecord) (t0 : String) (v0 : Nat) (t1 : String) (tx1 : Tx)
    (e : Nat) (t2 : String) (tx2 : Tx) (jv : Nat) (B : String)
    (hN : lookupNFT l.nfts num = some rec) (ht : rec.lastTx = some t0)
    (hne : t0 ≠ "") (hb : rec.burned = false) (hv : rec.lastVout = some v0)
    (hs1 : P.spender t0 v0 = .ok (some t1)) (htx1 : P.tx t1 = .ok (some tx1))
    (hj1 : findJigVout tx1 = some ⟨e, none, true⟩)
    (hs2 : P.spender t1 e = .ok (some t2)) (htx2 : P.tx t2 = .ok (some tx2))
    (hj2 : findJigVout tx2 = some ⟨jv, some B, false⟩)
    (hB1 : B ≠ "") (hB2 : B ≠ rec.owner)
    (hs3 : P.spender t2 jv = .ok none) :
    (processNFT P l num).1 = .ok .changed ∧
    lookupNFT (processNFT P l num).2.1.nfts num =
      some (movedRec rec B t2 jv [⟨t2, "send", rec.owner, some B, tx2.blockheight⟩]) ∧
    (processNFT P l num).2.1.owners =
      addToOwnerIndex (removeFromOwnerIndex l.owners rec.owner num) B num := by
  unfold processNFT
  rw [hN]
  dsimp only
  rw [ht]
  dsimp only
  rw [if_neg hne, if_neg (by simp [hb])]
  rw [resolveLastVout_cached P t0 rec v0 hv]
  dsimp only
  rw [hs1]
  dsimp only
  rw [htx1]
  dsimp only
  rw [hj1]
  dsimp only
  rw [jigNewOwner_orderLock e rec.owner]
  dsimp only
  unfold traceForward
  rw [show (100 : Nat) = 98 + 1 + 1 from rfl]
  rw [traceForwardAux_escrow_two_hops P 98 t1 e rec.owner t2 tx2 jv B []
    hs2 htx2 hj2 hB1 (fun hc => hB2 hc) hs3]
  dsimp only
  rw [setNFT_setNFT]
  rw [if_pos (show rec.owner ≠ B from fun hc => hB2 hc.symm)]
  refine ⟨rfl, ?_, rfl⟩
  rw [lookupNFT_setNFT_self l.nfts num _ rec hN]
  unfold movedRec
  simp

/-- Escrow-passthrough chain: `t0:0` spent by `t1` (escrow output),
`t1:0` spent by `t2` (standard dust to `B`), `t2:0` unspent. -/
def escrowP : Provider :=
  ⟨fun t v =>
      if t = "t0" ∧ v = 0 then .ok (some "t1")
      else if t = "t1" ∧ v = 0 then .ok (some "t2")
      else .ok none,
   fun s =>
      if s = "t1" then .ok (some (txLock 9))
      else if s = "t2" then .ok (some (txStdTo "B" 10))
      else .ok none⟩

/-- Witness for C5. -/
theorem escrow_passthrough_single_send_witness :
    (processNFT escrowP ledg0 1).1 = .ok .changed ∧
    lookupNFT (processNFT escrowP ledg0 1).2.1.nfts 1 =
      some (movedRec rec0 "B" "t2" 0 [⟨"t2", "send", rec0.owner, some "B", 10⟩]) ∧
    (processNFT escrowP ledg0 1).2.1.owners =
      addToOwnerIndex (removeFromOwnerIndex ledg0.owners rec0.owner 1) "B" 1 :=
  escrow_passthrough_single_send escrowP ledg0 1 rec0 "t0" 0 "t1" (txLock 9)
    0 "t2" (txStdTo "B" 10) 0 "B"
    rfl rfl (by decide) rfl rfl (by decide) (by decide) (by decide)
    (by decide) (by decide) (by decide) (by decide) (by decide) (by decide)

/-! ### Failure to fetch a spending transaction -/

/-- Provider where the position is reported spent by `t1`, but `t1`
itself is "not found" (the provider successfully answers null). -/
def nullTxP : Provider :=
  ⟨fun t v => if t = "t0" ∧ v = 0 then .ok (some "t1") else .ok none,
   fun _ => .ok none⟩

/-- Counterexample to C3 as stated: the tracer has determined `t0:0`
is spent (`getSpender` returned `t1`), `getTx` yields no transaction
(a successful null), yet `traceForward` returns `(t0, 0)` as the tip
of an apparently completed trace instead of propagating an error. -/
theorem traceForward_null_tx_returns_tip_cx :
    nullTxP.spender "t0" 0 = .ok (some "t1") ∧
    nullTxP.tx "t1" = .ok none ∧
    (traceForward nullTxP "t0" 0 "A").1 = .ok ⟨"A", "t0", 0, [], 1⟩ := by
  decide

/-- C3 amended: when `getTx` **fails with an error** after retries,
the error propagates out of both the first hop of `processNFT` and any
`traceForward` hop; when `getTx` successfully yields null,
the first hop of `processNFT` raises the could-not-fetch error, but
`traceForward` (see the counterexample) silently returns the current
position as the tip. -/
theorem getTx_failure_propagates (P : Provider) (l : Ledger) (num : Nat)
    (rec : NFTRecord) (t : String) (v : Nat) (s : String)
    (hN : lookupNFT l.nfts num = some rec) (ht : rec.lastTx = some t)
    (hne : t ≠ "") (hb : rec.burned = false) (hv : rec.lastVout = some v)
    (hs : P.spender t v = .ok (some s)) :
    (∀ e, P.tx s = .error e → (processNFT P l num).1 = .error e) ∧
    (P.tx s = .ok none →
      (processNFT P l num).1 = .error "could not fetch spending tx") ∧
    (∀ (fuel : Nat) (o : String) (acc : List Transfer) (hops : Nat)
      (rq : List Req) (e : Err), P.tx s = .error e →
      (traceForwardAux P (fuel + 1) t v o acc hops rq).1 = .error e) := by
  refine ⟨?_, ?_, ?_⟩
  · intro e he
    unfold processNFT
    rw [hN]
    dsimp only
    rw [ht]
    dsimp only
    rw [if_neg hne, if_neg (by simp [hb])]
    rw [resolveLastVout_cached P t rec v hv]
    dsimp only
    rw [hs]
    dsimp only
    rw [he]
  · intro he
    unfold processNFT
    rw [hN]
    dsimp only
    rw [ht]
    dsimp only
    rw [if_neg hne, if_neg (by simp [hb])]
    rw [resolveLastVout_cached P t rec v hv]
    dsimp only
    rw [hs]
    dsimp only
    rw [he]
  · intro fuel o acc hops rq e he
    exact traceForwardAux_tx_error P fuel t v o acc hops rq s e hs he

/-- Witness for the amended C3, under the provider that reports a
spend but errors on every transaction fetch. -/
theorem getTx_failure_propagates_witness :
    (∀ e, failP.tx "s1" = .error e → (processNFT failP ledg0 1).1 = .error e) ∧
    (failP.tx "s1" = .ok none →
      (processNFT failP ledg0 1).1 = .error "could not fetch spending tx") ∧
    (∀ (fuel : Nat) (o : String) (acc : List Transfer) (hops : Nat)
      (rq : List Req) (e : Err), failP.tx "s1" = .error e →
      (traceForwardAux failP (fuel + 1) "t0" 0 o acc hops rq).1 = .error e) :=
  getTx_failure_propagates failP ledg0 1 rec0 "t0" 0 "s1"
    rfl rfl (by decide) rfl rfl (by decide)

/-! ### The hop ceiling -/

/-- An endless chain of spends: every position is spent by a fresh
transaction whose jig output goes back to `A`. -/
def infiniteP : Provider :=
  ⟨fun t _ => .ok (some ("x" ++ t)), fun _ => .ok (some (txStdTo "A" 1))⟩

/-- Identical to `infiniteP` on every position the 100-hop trace
visits, but the position the trace ends at is genuinely unspent. -/
def cappedP : Provider :=
  ⟨fun t _ => if t.length > 100 then .ok none else .ok (some ("x" ++ t)),
   fun _ => .ok (some (txStdTo "A" 1))⟩

/-- The txid reached after `n` hops of the chain. -/
def cgrow : Nat → String
  | 0 => "t"
  | n + 1 => "x" ++ cgrow n

/-- Counterexample to C8 as stated: a trace stopped by the hop
ceiling (`infiniteP`: the final position is still spent, the asset
may have moved further) returns exactly the same `TraceResult` as a
trace that made 100 hops to a genuinely unspent tip (`cappedP`), so
the ceiling stop is not reported distinguishably to the caller. -/
theorem hop_ceiling_indistinguishable_cx :
    (traceForward infiniteP "t" 0 "A").1 = .ok ⟨"A", cgrow 100, 0, [], 100⟩ ∧
    (traceForward cappedP "t" 0 "A").1 = (traceForward infiniteP "t" 0 "A").1 ∧
    infiniteP.spender (cgrow 100) 0 = .ok (some ("x" ++ cgrow 100)) ∧
    cappedP.spender (cgrow 100) 0 = .ok none := by
  decide

/-- C8 amended: the tracer always stops within the 100-hop ceiling —
the returned hop count never exceeds 100 — but a ceiling stop carries
no distinct marker (see the counterexample) and the driver surfaces
no warning. -/
theorem trace_hops_bounded (P : Provider) (t : String) (v : Nat) (o : String)
    (res : TraceResult) (rq : List Req)
    (h : traceForward P t v o = (.ok res, rq)) : res.hops ≤ 100 :=
  traceForwardAux_hops_le P 100 t v o [] 0 [] rq res h

/-- Witness for the amended C8 on the endless chain, where the trace
stops exactly at the ceiling. -/
theorem trace_hops_bounded_witness :
    (⟨"A", cgrow 100, 0, [], 100⟩ : TraceResult).hops ≤ 100 :=
  trace_hops_bounded infiniteP "t" 0 "A" ⟨"A", cgrow 100, 0, [], 100⟩
    (traceForward infiniteP "t" 0 "A").2 (by decide)

/-! ### Throttling and the retry budget -/

/-- Counterexample to C6 as stated.  First conjunct: with a 429 on
attempt 0 and hard failures on attempts 1–3, `wocGet` fails even
though the schedule succeeds at attempt 4 — after one throttle only
three attempts remained for hard failures, so the throttle consumed
part of the shared budget.  Second conjunct: the same three hard
failures without a preceding throttle leave an attempt to spare and
the call succeeds.  Third conjunct: throttling responses alone
exhaust the budget and surface the `rate-limited` error. -/
theorem throttle_consumes_retry_budget_cx :
    wocGetModel
      (fun i => if i = 0 then .rateLimited
        else if i ≤ 3 then .hardFail else .success) MAX_RETRIES 300 =
      (.error "request failed", 600) ∧
    wocGetModel
      (fun i => if i ≤ 2 then .hardFail else .success) MAX_RETRIES 300 =
      (.ok .body, 250) ∧
    wocGetModel (fun _ => .rateLimited) MAX_RETRIES 300 =
      (.error "rate-limited", 3000) := by
  decide

/-- C6 amended: a 429 triggers the adaptive-delay doubling (capped at
3000 ms) and a retry after backoff, but it consumes an attempt from
the same `MAX_RETRIES` budget as a hard failure: processing resumes
at attempt 1 with one fewer loop iteration remaining. -/
theorem throttle_retry_same_budget (sched : Nat → HResp) (retries d : Nat)
    (hr : 0 < retries) (h0 : sched 0 = .rateLimited) :
    wocGetModel sched retries d =
      wocGetGo sched retries retries 1 (onThrottleDelay d) := by
  unfold wocGetModel
  cases retries with
  | zero => exact absurd hr (by simp)
  | succ k =>
    show wocGetGo sched (k + 1) (k + 1 + 1) 0 d =
      wocGetGo sched (k + 1) (k + 1) 1 (onThrottleDelay d)
    simp [wocGetGo, h0]

/-- Witness for the amended C6: an all-throttle schedule. -/
theorem throttle_retry_same_budget_witness :
    wocGetModel (fun _ => HResp.rateLimited) MAX_RETRIES 300 =
      wocGetGo (fun _ => HResp.rateLimited) MAX_RETRIES MAX_RETRIES 1
        (onThrottleDelay 300) :=
  throttle_retry_same_budget (fun _ => HResp.rateLimited) MAX_RETRIES 300
    (by decide) rfl

/-! ### Owner-index hygiene -/

/-- An owner-index mutation, as the refresh script performs them. -/
inductive IdxOp
  | add (addr : String) (num : Nat)
  | remove (addr : String) (num : Nat)

def applyIdxOp (O : List (String × List Nat)) : IdxOp → List (String × List Nat)
  | .add a n => addToOwnerIndex O a n
  | .remove a n => removeFromOwnerIndex O a n

def applyIdxOps (O : List (String × List Nat)) :
    List IdxOp → List (String × List Nat)
  | [] => O
  | op :: rest => applyIdxOps (applyIdxOp O op) rest

/-- Owner-index hygiene: distinct keys, and every address maps to a
non-empty, duplicate-free set of asset IDs. -/
def IdxHygiene (O : List (String × List Nat)) : Prop :=
  (O.map Prod.fst).Nodup ∧ ∀ p ∈ O, p.2 ≠ [] ∧ p.2.Nodup

instance (O : List (String × List Nat)) : Decidable (IdxHygiene O) := by
  unfold IdxHygiene
  infer_instance

theorem addToOwnerIndex_hygiene (O : List (String × List Nat)) (a : String)
    (n : Nat) (h : IdxHygiene O) : IdxHygiene (addToOwnerIndex O a n) := by
  obtain ⟨hk, hv⟩ := h
  unfold addToOwnerIndex
  cases hL : lookupIdx O a with
  | none =>
    dsimp only
    constructor
    · have ha : a ∉ O.map Prod.fst := (lookupIdx_eq_none_iff O a).mp hL
      simp [List.nodup_append, hk, ha]
    · intro p hp
      rcases List.mem_append.mp hp with hp | hp
      · exact hv p hp
      · simp only [List.mem_singleton] at hp
        subst hp
        simp
  | some lst =>
    dsimp only
    by_cases hm : n ∈ lst
    · rw [if_pos hm]
      exact ⟨hk, hv⟩
    · rw [if_neg hm]
      constructor
      · rw [setIdx_keys]
        exact hk
      · intro p hp
        rcases mem_setIdx O a (lst ++ [n]) p hp with hp2 | hp2
        · exact hv p hp2
        · subst hp2
          have hlm := hv (a, lst) (lookupIdx_mem O a lst hL)
          refine ⟨by simp, ?_⟩
          simp only [List.nodup_append, List.nodup_cons, List.nodup_nil]
          exact ⟨hlm.2, by simp, by simpa [List.disjoint_singleton] using hm⟩

theorem removeFromOwnerIndex_hygiene (O : List (String × List Nat)) (a : String)
    (n : Nat) (h : IdxHygiene O) : IdxHygiene (removeFromOwnerIndex O a n) := by
  obtain ⟨hk, hv⟩ := h
  unfold removeFromOwnerIndex
  cases hL : lookupIdx O a with
  | none => exact ⟨hk, hv⟩
  | some lst =>
    dsimp only
    by_cases he : (lst.filter (· != n)).isEmpty
    · rw [if_pos he]
      constructor
      · exact (eraseIdx_keys_sublist O a).nodup hk
      · intro p hp
        exact hv p (mem_eraseIdx O a p hp)
    · rw [if_neg he]
      constructor
      · rw [setIdx_keys]
        exact hk
      · intro p hp
        rcases mem_setIdx O a (lst.filter (· != n)) p hp with hp2 | hp2
        · exact hv p hp2
        · subst hp2
          have hlm := hv (a, lst) (lookupIdx_mem O a lst hL)
          refine ⟨?_, List.Nodup.filter _ hlm.2⟩
          intro hc
          rw [List.isEmpty_iff] at he
          exact he hc

theorem applyIdxOps_hygiene (ops : List IdxOp) :
    ∀ O : List (String × List Nat), IdxHygiene O → IdxHygiene (applyIdxOps O ops) := by
  induction ops with
  | nil => intro O h; exact h
  | cons op rest ih =>
    intro O h
    cases op with
    | add a n => exact ih _ (addToOwnerIndex_hygiene O a n h)
    | remove a n => exact ih _ (removeFromOwnerIndex_hygiene O a n h)

/-- C10: after any sequence of owner-index operations starting from a
hygienic index, hygiene is preserved (no empty sets, no duplicate
IDs, distinct keys), and the reported unique-owner count — the number
of keys — counts exactly the addresses holding at least one asset. -/
theorem owner_index_hygiene (O : List (String × List Nat)) (ops : List IdxOp)
    (h : IdxHygiene O) :
    IdxHygiene (applyIdxOps O ops) ∧
    uniqueOwners (applyIdxOps O ops) = ((applyIdxOps O ops).map Prod.fst).length ∧
    ∀ a, a ∈ (applyIdxOps O ops).map Prod.fst ↔
      ∃ n, ownsB (applyIdxOps O ops) a n = true := by
  have h2 := applyIdxOps_hygiene ops O h
  refine ⟨h2, by simp [uniqueOwners], ?_⟩
  intro a
  constructor
  · intro ha
    cases hL : lookupIdx (applyIdxOps O ops) a with
    | none => exact absurd ha ((lookupIdx_eq_none_iff _ a).mp hL)
    | some lst =>
      have hlm := h2.2 (a, lst) (lookupIdx_mem _ a lst hL)
      cases lst with
      | nil => exact absurd rfl hlm.1
      | cons n rest =>
        refine ⟨n, ?_⟩
        rw [ownsB_iff]
        exact ⟨n :: rest, hL, by simp⟩
  · rintro ⟨n, hn⟩
    rw [ownsB_iff] at hn
    obtain ⟨lst, hL, -⟩ := hn
    by_contra hc
    rw [← lookupIdx_eq_none_iff] at hc
    rw [hc] at hL
    exact Option.noConfusion hL

/-- Witness for C10 on a concrete index and operation sequence that
exercises removal-to-empty (key deletion), duplicate-add suppression,
and fresh-key creation. -/
theorem owner_index_hygiene_witness :
    IdxHygiene (applyIdxOps [("A", [1, 2]), ("B", [3])]
      [.remove "A" 1, .remove "A" 2, .add "C" 1, .add "C" 1]) ∧
    uniqueOwners (applyIdxOps [("A", [1, 2]), ("B", [3])]
        [.remove "A" 1, .remove "A" 2, .add "C" 1, .add "C" 1]) =
      ((applyIdxOps [("A", [1, 2]), ("B", [3])]
        [.remove "A" 1, .remove "A" 2, .add "C" 1, .add "C" 1]).map Prod.fst).length ∧
    ∀ a, a ∈ (applyIdxOps [("A", [1, 2]), ("B", [3])]
        [.remove "A" 1, .remove "A" 2, .add "C" 1, .add "C" 1]).map Prod.fst ↔
      ∃ n, ownsB (applyIdxOps [("A", [1, 2]), ("B", [3])]
        [.remove "A" 1, .remove "A" 2, .add "C" 1, .add "C" 1]) a n = true :=
  owner_index_hygiene [("A", [1, 2]), ("B", [3])]
    [.remove "A" 1, .remove "A" 2, .add "C" 1, .add "C" 1] (by decide)

end Rexxie
